import Mathlib

/-!
Histogram packing (`src/main.c`)

A shallow embedding of `pack_histograms` and the proofs of its layout
properties.

Conventions of the embedding:

* `uint32_t` / `uint8_t` values are natural numbers; the only operation of the
  source that can leave the 32-bit range, `count << bit_offset`, is truncated
  explicitly (`shl32`).
* `histograms[cam][bin]` is `histograms cam bin`.
* The caller's memory behind `output_buffer` is a map from byte index to byte
  value.  Every store through `dest[i]` is also appended to a log, so that the
  set of written indices can be stated.
* `(uint8_t *)packed` is read on a little-endian host, as the comment of the
  source at the copy loop says ("in little-endian order"): byte `i` of the word
  array is byte `i % 4` of word `i / 4`, least significant byte first.
* `exit(EXIT_FAILURE)` ends the run in `Outcome.exited`, which records the
  three values printed to `stderr` and the memory at that moment.
-/

namespace HistogramPacking

/-! ## Constants (`#define`s, lines 6-9) -/

abbrev NUM_BINS : Nat := 1024
abbrev NUM_CAMERAS : Nat := 8
abbrev BYTES_PER_BIN : Nat := 21
abbrev TOTAL_BYTES : Nat := NUM_BINS * BYTES_PER_BIN

/-- The bound `1UL << 21` of the width check (line 31). -/
abbrev FIELD_LIMIT : Nat := 1 <<< 21

/-! ## Data model -/

/-- The parameter `uint32_t histograms[NUM_CAMERAS][NUM_BINS]`, indexed camera first. -/
abbrev Histograms := Nat → Nat → Nat

/-- The local `uint32_t packed[6]`, indexed by word. -/
abbrev Packed := Nat → Nat

/-- One store `dest[i] = ...` as it is logged: the bin whose iteration executed
it and the index into `output_buffer` it wrote. -/
structure Store where
  bin : Nat
  index : Nat
deriving DecidableEq, Repr

/-- Caller memory: the bytes behind `output_buffer` and the log of the stores
made so far, oldest first. -/
structure Mem where
  output_buffer : Nat → Nat
  stores : List Store

/-- How a call of `pack_histograms` ends: it returns to the caller, or the
process is ended by `exit(EXIT_FAILURE)` after the message with `count`, `bin`
and `cam` was printed. -/
inductive Outcome where
  | returned (mem : Mem)
  | exited (count bin cam : Nat) (mem : Mem)

/-- The memory at the end of a run, however it ended. -/
def Outcome.mem : Outcome → Mem
  | .returned mem => mem
  | .exited _ _ _ mem => mem

/-- Whether control came back to the caller. -/
def Outcome.isReturned : Outcome → Bool
  | .returned _ => true
  | .exited _ _ _ _ => false

/-! ## The code -/

/-- The 32-bit shift `count << bit_offset` on `uint32_t`: bits shifted past bit 31
are lost. -/
def shl32 (x n : Nat) : Nat := (x <<< n) % 2 ^ 32

/-- Lines 36-46: place `count` at `bit_pos` in the word array. -/
def place (packed : Packed) (bit_pos count : Nat) : Packed :=
  let word_index := bit_pos / 32
  let bit_offset := bit_pos % 32
  if bit_offset ≤ 11 then
    Function.update packed word_index (packed word_index ||| shl32 count bit_offset)
  else
    let bits_in_first := 32 - bit_offset
    let packed1 :=
      Function.update packed word_index (packed word_index ||| shl32 count bit_offset)
    Function.update packed1 (word_index + 1)
      (packed1 (word_index + 1) ||| (count >>> bits_in_first))

/-- The values of the message printed before `exit`. -/
structure Overflow where
  count : Nat
  bin : Nat
  cam : Nat
deriving DecidableEq, Repr

/-- Lines 27-48: the camera loop `for (cam = 0; cam < NUM_CAMERAS; cam++)`.
`todo` is the number of iterations left (`NUM_CAMERAS - cam`); the result is the
word array after the loop, or the overflow at which `exit` is called. -/
def camLoop (histograms : Histograms) (bin : Nat) :
    Nat → Nat → Nat → Packed → Except Overflow Packed
  | 0, _, _, packed => .ok packed
  | todo + 1, cam, bit_pos, packed =>
    let count := histograms cam bin
    if count ≥ FIELD_LIMIT then
      .error ⟨count, bin, cam⟩
    else
      camLoop histograms bin todo (cam + 1) (bit_pos + 21) (place packed bit_pos count)

/-- Lines 23-48: the word array of one bin, from `packed[6] = {0}` and
`bit_pos = 0`. -/
def packBin (histograms : Histograms) (bin : Nat) : Except Overflow Packed :=
  camLoop histograms bin NUM_CAMERAS 0 0 (fun _ => 0)

/-- Line 52, `src[i]` with `src = (uint8_t *)packed`: byte `i` of the word array
on a little-endian host. -/
def srcByte (packed : Packed) (i : Nat) : Nat :=
  packed (i / 4) / 2 ^ (8 * (i % 4)) % 256

/-- One store `output_buffer[index] = value`, executed in the iteration of `bin`. -/
def Mem.store (mem : Mem) (bin index value : Nat) : Mem :=
  { output_buffer := Function.update mem.output_buffer index value
    stores := mem.stores ++ [⟨bin, index⟩] }

/-- Lines 51-55: the copy loop `for (i = 0; i < BYTES_PER_BIN; i++) dest[i] = src[i]`
with `dest = output_buffer + bin * BYTES_PER_BIN`; `todo` is the number of
iterations left. -/
def copyLoop (packed : Packed) (bin : Nat) : Nat → Nat → Mem → Mem
  | 0, _, mem => mem
  | todo + 1, i, mem =>
    copyLoop packed bin todo (i + 1) (mem.store bin (bin * BYTES_PER_BIN + i) (srcByte packed i))

/-- Lines 21-56: the bin loop `for (bin = 0; bin < NUM_BINS; bin++)`; `todo` is
the number of iterations left. -/
def binLoop (histograms : Histograms) : Nat → Nat → Mem → Outcome
  | 0, _, mem => .returned mem
  | todo + 1, bin, mem =>
    match packBin histograms bin with
    | .error e => .exited e.count e.bin e.cam mem
    | .ok packed =>
      binLoop histograms todo (bin + 1) (copyLoop packed bin BYTES_PER_BIN 0 mem)

/-- Lines 19-57: `pack_histograms(histograms, output_buffer)`, run on a caller
buffer with the given contents. -/
def pack_histograms (histograms : Histograms) (output_buffer : Nat → Nat) : Outcome :=
  binLoop histograms NUM_BINS 0 ⟨output_buffer, []⟩

/-! ## Vocabulary of the specification -/

/-- Every count of the matrix fits in 21 bits. -/
def Valid (m : Histograms) : Prop :=
  ∀ cam, cam < NUM_CAMERAS → ∀ bin, bin < NUM_BINS → m cam bin < 2 ^ 21

/-- The bytes `buf[off] .. buf[off + n - 1]` read as a little-endian unsigned
integer. -/
def leValue (buf : Nat → Nat) (off n : Nat) : Nat :=
  ∑ i ∈ Finset.range n, buf (off + i) * 2 ^ (8 * i)

/-- The concatenation of the eight fields of bin `bin`, camera 0 lowest. -/
def concat (m : Histograms) (bin : Nat) : Nat :=
  ∑ c ∈ Finset.range NUM_CAMERAS, m c bin * 2 ^ (21 * c)

/-- Modelled from the spec: the inverse reader used as a test oracle (the
repository has no unpacking function).  The count of camera `cam` in bin `bin`
is the 21 bits at bit positions `21 * cam .. 21 * cam + 20` of the little-endian
21-byte record at offset `21 * bin`. -/
def unpack (buf : Nat → Nat) (cam bin : Nat) : Nat :=
  leValue buf (BYTES_PER_BIN * bin) BYTES_PER_BIN / 2 ^ (21 * cam) % 2 ^ 21

/-- The 192-bit value held by the word array, word 0 lowest. -/
def accValue (p : Packed) : Nat := ∑ k ∈ Finset.range 6, p k * 2 ^ (32 * k)

/-- Every word of the array is a `uint32_t`. -/
def WordsOk (p : Packed) : Prop := ∀ k, k < 6 → p k < 2 ^ 32

/-- Byte `i` of the record that the iteration of `bin` copies out (0 when the
camera loop of that bin ends in `exit`, where nothing is copied). -/
def recordByte (m : Histograms) (bin i : Nat) : Nat :=
  match packBin m bin with
  | .ok packed => srcByte packed i
  | .error _ => 0

/-- Column `bin` of the matrix fits in 21 bits. -/
def ValidBin (m : Histograms) (bin : Nat) : Prop :=
  ∀ cam, cam < NUM_CAMERAS → m cam bin < 2 ^ 21

/-! ## Sample inputs -/

/-- A valid matrix with a different count in every cell. -/
def rampMatrix : Histograms := fun cam bin => 2048 * bin + cam

/-- A caller buffer filled with zero bytes. -/
def zeroBuffer : Nat → Nat := fun _ => 0

/-- A matrix whose only oversized count, exactly `2 ^ 21`, sits at camera 3 of
bin 5; every other count is 0. -/
def overflowAt35 : Histograms := fun cam bin => if cam = 3 ∧ bin = 5 then 2097152 else 0

/-- A matrix whose first oversized count, exactly `2 ^ 21`, sits at camera 0 of
bin 1, after a bin 0 that holds the count 1 for camera 0; every other count is 0. -/
def overflowInBin1 : Histograms := fun cam bin =>
  if cam = 0 then (if bin = 0 then 1 else if bin = 1 then 2097152 else 0) else 0

/-- Column `N` of `m` alone: every other bin is set to zero. -/
def isolateBin (m : Histograms) (N : Nat) : Histograms := fun cam bin =>
  if bin = N then m cam bin else 0

/-- A valid matrix whose bin 9 holds `0x1FFFFF` for camera 1 and 0 for the other
cameras. -/
def straddleMatrix : Histograms := fun cam bin =>
  if bin = 9 then (if cam = 1 then 2097151 else 0) else 2048 * bin + cam

/-- A valid matrix whose bin 0 holds 1 for camera 0 and 0 for the other cameras. -/
def unitMatrix : Histograms := fun cam bin =>
  if bin = 0 then (if cam = 0 then 1 else 0) else 2048 * bin + cam

/-- A matrix whose only oversized count, exactly `2 ^ 21`, is the first one read:
camera 0 of bin 0. -/
def overflowAt00 : Histograms := fun cam bin => if cam = 0 ∧ bin = 0 then 2097152 else 0

/-- A matrix with two oversized counts: camera 7 of bin 0 and camera 0 of bin 1. -/
def twoOverflows : Histograms := fun cam bin =>
  if (cam = 7 ∧ bin = 0) ∨ (cam = 0 ∧ bin = 1) then 2097152 else 0

/-- A word array with bits set in each of its six words. -/
def sampleWords : Packed := fun k => if k < 6 then 0xDEADBEEF else 0

/-! ## The placement step in detail -/

/-- Line 36: `word_index = bit_pos / 32`. -/
def word_index (bit_pos : Nat) : Nat := bit_pos / 32

/-- Line 37: `bit_offset = bit_pos % 32`. -/
def bit_offset (bit_pos : Nat) : Nat := bit_pos % 32

/-- Line 43: `bits_in_first = 32 - bit_offset`. -/
def bits_in_first (bit_pos : Nat) : Nat := 32 - bit_offset bit_pos

/-- Lines 36-46 with every access checked: the result is `none` when an index
into `packed[6]` is 6 or more or a shift amount on a `uint32_t` is 32 or more,
which C leaves undefined. -/
def placeChecked (packed : Packed) (bit_pos count : Nat) : Option Packed :=
  if bit_offset bit_pos ≤ 11 then
    if word_index bit_pos < 6 ∧ bit_offset bit_pos < 32 then
      some (Function.update packed (word_index bit_pos)
        (packed (word_index bit_pos) ||| shl32 count (bit_offset bit_pos)))
    else none
  else
    if word_index bit_pos < 6 ∧ bit_offset bit_pos < 32 ∧ word_index bit_pos + 1 < 6 ∧
        bits_in_first bit_pos < 32 then
      let packed1 := Function.update packed (word_index bit_pos)
        (packed (word_index bit_pos) ||| shl32 count (bit_offset bit_pos))
      some (Function.update packed1 (word_index bit_pos + 1)
        (packed1 (word_index bit_pos + 1) ||| (count >>> bits_in_first bit_pos)))
    else none

/-- The placement as the specification words it: the field of camera `c` is ORed
into the wide integer `A` at bit `21 * c`. -/
def placeWide (A c v : Nat) : Nat := A ||| (v * 2 ^ (21 * c))

/-! ## Arithmetic of one placement -/

theorem accValue_eq (p : Packed) :
    accValue p = p 0 + p 1 * 2 ^ 32 + p 2 * 2 ^ 64 + p 3 * 2 ^ 96 + p 4 * 2 ^ 128
      + p 5 * 2 ^ 160 := by
  simp [accValue, Finset.sum_range_succ]

theorem or_shift_eq_add (a b k : Nat) (h : a < 2 ^ k) : a ||| b * 2 ^ k = a + b * 2 ^ k := by
  rw [Nat.or_comm, Nat.mul_comm, ← Nat.mul_add_lt_is_or h, Nat.add_comm]

theorem shl32_eq (v off : Nat) (h : off ≤ 32) :
    shl32 v off = v % 2 ^ (32 - off) * 2 ^ off := by
  unfold shl32
  rw [Nat.shiftLeft_eq]
  have : (2:Nat) ^ 32 = 2 ^ (32 - off) * 2 ^ off := by
    rw [← pow_add]; congr 1; omega
  rw [this, Nat.mul_mod_mul_right]

/-- The words after one placement, when the target bits are still clear. -/
theorem place_eq (p : Packed) (bit_pos v : Nat) (hv : v < 2 ^ 21)
    (hlow : p (bit_pos / 32) < 2 ^ (bit_pos % 32)) (hnext : p (bit_pos / 32 + 1) = 0) :
    place p bit_pos v = fun k =>
      if k = bit_pos / 32 then p (bit_pos / 32) + v % 2 ^ (32 - bit_pos % 32) * 2 ^ (bit_pos % 32)
      else if k = bit_pos / 32 + 1 then v / 2 ^ (32 - bit_pos % 32)
      else p k := by
  have hoff : bit_pos % 32 < 32 := Nat.mod_lt _ (by norm_num)
  funext k
  unfold place
  simp only
  rw [shl32_eq _ _ hoff.le, or_shift_eq_add _ _ _ hlow]
  split
  · by_cases hk : k = bit_pos / 32
    · subst hk; simp
    · by_cases hk1 : k = bit_pos / 32 + 1
      · have hz : v / 2 ^ (32 - bit_pos % 32) = 0 := by
          apply Nat.div_eq_of_lt
          calc v < 2 ^ 21 := hv
            _ ≤ 2 ^ (32 - bit_pos % 32) := Nat.pow_le_pow_right (by norm_num) (by omega)
        subst hk1; simp [hz, hnext]
      · simp [Function.update, hk, hk1]
  · by_cases hk : k = bit_pos / 32
    · subst hk; simp [Function.update]
    · by_cases hk1 : k = bit_pos / 32 + 1
      · subst hk1; simp [Function.update, hnext, Nat.shiftRight_eq_div_pow]
      · simp [Function.update, hk, hk1]

/-- Placing camera `c` on an accumulator that holds only the fields of the
cameras below `c` adds `v * 2 ^ (21 * c)` to its value. -/
theorem place_spec (c : Nat) (hc : c < 8) (p : Packed) (v : Nat) (hv : v < 2 ^ 21)
    (hw : WordsOk p) (hA : accValue p < 2 ^ (21 * c)) :
    WordsOk (place p (21 * c) v) ∧
      accValue (place p (21 * c) v) = accValue p + v * 2 ^ (21 * c) ∧
      accValue (place p (21 * c) v) < 2 ^ (21 * (c + 1)) := by
  have h0 := hw 0 (by omega)
  have h1 := hw 1 (by omega)
  have h2 := hw 2 (by omega)
  have h3 := hw 3 (by omega)
  have h4 := hw 4 (by omega)
  have h5 := hw 5 (by omega)
  rw [accValue_eq] at hA
  interval_cases c
  all_goals
    rw [place_eq p _ v hv (by norm_num at hA ⊢; omega) (by norm_num at hA ⊢; omega)]
    refine ⟨?_, ?_, ?_⟩
    · intro k hk
      interval_cases k <;> norm_num <;> omega
    · rw [accValue_eq, accValue_eq]
      norm_num
      omega
    · rw [accValue_eq]
      norm_num at hA ⊢
      omega

/-! ## The camera loop -/

theorem camLoop_ok (m : Histograms) (bin : Nat) :
    ∀ todo cam (p : Packed), cam + todo ≤ 8 →
      (∀ c, cam ≤ c → c < cam + todo → m c bin < 2 ^ 21) →
      WordsOk p → accValue p < 2 ^ (21 * cam) →
      ∃ q, camLoop m bin todo cam (21 * cam) p = .ok q ∧ WordsOk q ∧
        accValue q = accValue p + ∑ j ∈ Finset.range todo, m (cam + j) bin * 2 ^ (21 * (cam + j)) ∧
        accValue q < 2 ^ (21 * (cam + todo)) := by
  intro todo
  induction todo with
  | zero =>
    intro cam p _ _ hw hA
    exact ⟨p, rfl, hw, by simp, by simpa using hA⟩
  | succ n ih =>
    intro cam p hle hv hw hA
    have hv0 : m cam bin < 2 ^ 21 := hv cam le_rfl (by omega)
    obtain ⟨hw1, hA1, hlt1⟩ := place_spec cam (by omega) p (m cam bin) hv0 hw hA
    obtain ⟨q, hq, hwq, hAq, hltq⟩ := ih (cam + 1) (place p (21 * cam) (m cam bin)) (by omega)
      (fun c h1 h2 => hv c (by omega) (by omega)) hw1 hlt1
    refine ⟨q, ?_, hwq, ?_, ?_⟩
    · have hnot : ¬ m cam bin ≥ FIELD_LIMIT := by
        simp only [FIELD_LIMIT, Nat.shiftLeft_eq]; omega
      simp only [camLoop, hnot, if_false]
      rw [show 21 * cam + 21 = 21 * (cam + 1) by ring]
      exact hq
    · rw [hAq, hA1, Finset.sum_range_succ']
      simp only [Nat.add_zero]
      have : ∀ j, cam + 1 + j = cam + (j + 1) := fun j => by ring
      simp only [this]
      ring
    · rw [show cam + (n + 1) = cam + 1 + n by ring]
      exact hltq

/-- The camera loop stops at the first camera whose count does not fit. -/
theorem camLoop_overflow (m : Histograms) (bin c0 : Nat) (hbad : 2 ^ 21 ≤ m c0 bin) :
    ∀ todo cam bit_pos (p : Packed), cam ≤ c0 → c0 < cam + todo →
      (∀ c, cam ≤ c → c < c0 → m c bin < 2 ^ 21) →
      camLoop m bin todo cam bit_pos p = .error ⟨m c0 bin, bin, c0⟩ := by
  intro todo
  induction todo with
  | zero => intro cam _ _ h1 h2; omega
  | succ n ih =>
    intro cam bit_pos p h1 h2 hv
    by_cases hc : cam = c0
    · subst hc
      have hge : m cam bin ≥ FIELD_LIMIT := by
        simp only [FIELD_LIMIT, Nat.shiftLeft_eq]; omega
      simp [camLoop, hge]
    · have hlt := hv cam le_rfl (by omega)
      have hnot : ¬ m cam bin ≥ FIELD_LIMIT := by
        simp only [FIELD_LIMIT, Nat.shiftLeft_eq]; omega
      simp only [camLoop, hnot, if_false]
      exact ih (cam + 1) _ _ (by omega) (by omega) (fun c h3 h4 => hv c (by omega) h4)

theorem packBin_ok (m : Histograms) (bin : Nat) (hv : ValidBin m bin) :
    ∃ q, packBin m bin = .ok q ∧ WordsOk q ∧ accValue q = concat m bin ∧
      accValue q < 2 ^ 168 := by
  have hz : accValue (fun _ => 0) = 0 := by simp [accValue]
  obtain ⟨q, hq, hwq, hAq, hltq⟩ := camLoop_ok m bin 8 0 (fun _ => 0) (by omega)
    (fun c _ h => hv c (by simpa using h)) (fun k _ => by norm_num) (by rw [hz]; norm_num)
  refine ⟨q, hq, hwq, ?_, by simpa using hltq⟩
  rw [hAq, hz]
  simp [concat]

theorem packBin_overflow (m : Histograms) (bin c0 : Nat) (hc0 : c0 < NUM_CAMERAS)
    (hbad : 2 ^ 21 ≤ m c0 bin) (hfirst : ∀ c, c < c0 → m c bin < 2 ^ 21) :
    packBin m bin = .error ⟨m c0 bin, bin, c0⟩ :=
  camLoop_overflow m bin c0 hbad 8 0 0 _ (Nat.zero_le _) (by simpa using hc0)
    (fun c _ h => hfirst c h)

/-! ## The byte view of the word array -/

theorem srcByte_eq (p : Packed) (hw : WordsOk p) (i : Nat) (hi : i < 24) :
    srcByte p i = accValue p / 2 ^ (8 * i) % 256 := by
  have h0 := hw 0 (by omega)
  have h1 := hw 1 (by omega)
  have h2 := hw 2 (by omega)
  have h3 := hw 3 (by omega)
  have h4 := hw 4 (by omega)
  have h5 := hw 5 (by omega)
  rw [accValue_eq]
  unfold srcByte
  interval_cases i <;> norm_num <;> omega

/-- The base-256 digits of a number add up to the number modulo `256 ^ n`. -/
theorem sum_bytes_eq_mod (A : Nat) (n : Nat) :
    ∑ i ∈ Finset.range n, (A / 2 ^ (8 * i) % 256) * 2 ^ (8 * i) = A % 2 ^ (8 * n) := by
  induction n with
  | zero => simp [Nat.mod_one]
  | succ n ih =>
    rw [Finset.sum_range_succ, ih]
    have h256 : ∀ k, (2:Nat) ^ (8 * k) = 256 ^ k := fun k => by
      rw [pow_mul]; norm_num
    rw [h256, h256, Nat.mod_pow_succ]
    ring

/-! ## The copy loop -/

theorem copyLoop_buffer (p : Packed) (bin : Nat) :
    ∀ todo i (mem : Mem) (k : Nat),
      (copyLoop p bin todo i mem).output_buffer k =
        if bin * 21 + i ≤ k ∧ k < bin * 21 + i + todo then srcByte p (k - bin * 21)
        else mem.output_buffer k := by
  intro todo
  induction todo with
  | zero =>
    intro i mem k
    have h : ¬ (bin * 21 + i ≤ k ∧ k < bin * 21 + i + 0) := by omega
    rw [if_neg h]
    rfl
  | succ n ih =>
    intro i mem k
    simp only [copyLoop]
    rw [ih]
    by_cases hk : k = bin * 21 + i
    · subst hk
      simp [Mem.store]
    · simp only [Mem.store, Function.update, hk]
      by_cases h1 : bin * 21 + (i + 1) ≤ k ∧ k < bin * 21 + (i + 1) + n
      · have h2 : bin * 21 + i ≤ k ∧ k < bin * 21 + i + (n + 1) := by omega
        simp [h1, h2]
      · have h2 : ¬ (bin * 21 + i ≤ k ∧ k < bin * 21 + i + (n + 1)) := by omega
        simp [h1, h2]

theorem copyLoop_stores (p : Packed) (bin : Nat) :
    ∀ todo i (mem : Mem),
      (copyLoop p bin todo i mem).stores =
        mem.stores ++ (List.range todo).map (fun j => ⟨bin, bin * 21 + i + j⟩) := by
  intro todo
  induction todo with
  | zero => intro i mem; simp [copyLoop]
  | succ n ih =>
    intro i mem
    simp only [copyLoop]
    rw [ih, List.range_succ_eq_map]
    simp only [Mem.store, List.map_cons, List.map_map, List.append_assoc, List.singleton_append,
      Nat.add_zero]
    congr 2
    apply List.map_congr_left
    intro j _
    simp only [Function.comp, Nat.succ_eq_add_one]
    congr 1
    omega

/-! ## The bin loop -/

/-- The log entries of the bins `bin .. bin + n - 1`. -/
theorem stores_step (bin n : Nat) :
    (List.range 21).map (fun j => (⟨bin, bin * 21 + 0 + j⟩ : Store)) ++
        (List.range (21 * n)).map (fun j => ⟨(21 * (bin + 1) + j) / 21, 21 * (bin + 1) + j⟩) =
      (List.range (21 * (n + 1))).map (fun j => ⟨(21 * bin + j) / 21, 21 * bin + j⟩) := by
  rw [show 21 * (n + 1) = 21 + 21 * n by ring, List.range_add, List.map_append, List.map_map]
  congr 1
  · apply List.map_congr_left
    intro j hj
    rw [List.mem_range] at hj
    have h1 : (21 * bin + j) / 21 = bin := by omega
    have h2 : bin * 21 + 0 + j = 21 * bin + j := by omega
    rw [h1, h2]
  · apply List.map_congr_left
    intro j _
    simp only [Function.comp]
    have h1 : 21 * (bin + 1) + j = 21 * bin + (21 + j) := by ring
    rw [h1]

/-- As long as the bins are valid the loop copies their records out, one after
the other, and goes on with the rest. -/
theorem binLoop_prefix (m : Histograms) (rest : Nat) :
    ∀ a bin (mem : Mem), (∀ b, bin ≤ b → b < bin + a → ValidBin m b) →
      ∃ mem1, binLoop m (a + rest) bin mem = binLoop m rest (bin + a) mem1 ∧
        (∀ k, mem1.output_buffer k =
          if 21 * bin ≤ k ∧ k < 21 * (bin + a) then recordByte m (k / 21) (k % 21)
          else mem.output_buffer k) ∧
        mem1.stores = mem.stores ++
          (List.range (21 * a)).map (fun j => ⟨(21 * bin + j) / 21, 21 * bin + j⟩) := by
  intro a
  induction a with
  | zero =>
    intro bin mem _
    refine ⟨mem, by simp, ?_, by simp⟩
    intro k
    have h : ¬ (21 * bin ≤ k ∧ k < 21 * (bin + 0)) := by omega
    rw [if_neg h]
  | succ n ih =>
    intro bin mem hv
    obtain ⟨q, hq, -, -, -⟩ := packBin_ok m bin (hv bin le_rfl (by omega))
    obtain ⟨mem1, hrun, hbuf, hst⟩ := ih (bin + 1) (copyLoop q bin BYTES_PER_BIN 0 mem)
      (fun b h1 h2 => hv b (by omega) (by omega))
    refine ⟨mem1, ?_, ?_, ?_⟩
    · rw [show n + 1 + rest = (n + rest) + 1 by ring]
      simp only [binLoop, hq]
      rw [hrun, show bin + 1 + n = bin + (n + 1) by ring]
    · intro k
      rw [hbuf k, copyLoop_buffer]
      by_cases h1 : 21 * (bin + 1) ≤ k ∧ k < 21 * (bin + 1 + n)
      · have h2 : 21 * bin ≤ k ∧ k < 21 * (bin + (n + 1)) := by omega
        rw [if_pos h1, if_pos h2]
      · rw [if_neg h1]
        by_cases h3 : bin * 21 + 0 ≤ k ∧ k < bin * 21 + 0 + 21
        · have h2 : 21 * bin ≤ k ∧ k < 21 * (bin + (n + 1)) := by omega
          have h4 : k / 21 = bin := by omega
          have h5 : k % 21 = k - bin * 21 := by omega
          rw [if_pos h3, if_pos h2, h4, h5]
          simp [recordByte, hq]
        · have h2 : ¬ (21 * bin ≤ k ∧ k < 21 * (bin + (n + 1))) := by omega
          rw [if_neg h3, if_neg h2]
    · rw [hst, copyLoop_stores, List.append_assoc, stores_step]

theorem binLoop_ok (m : Histograms) (todo bin : Nat) (mem : Mem)
    (hv : ∀ b, bin ≤ b → b < bin + todo → ValidBin m b) :
    ∃ mem1, binLoop m todo bin mem = .returned mem1 ∧
      (∀ k, mem1.output_buffer k =
        if 21 * bin ≤ k ∧ k < 21 * (bin + todo) then recordByte m (k / 21) (k % 21)
        else mem.output_buffer k) ∧
      mem1.stores = mem.stores ++
        (List.range (21 * todo)).map (fun j => ⟨(21 * bin + j) / 21, 21 * bin + j⟩) := by
  obtain ⟨mem1, hrun, hbuf, hst⟩ := binLoop_prefix m 0 todo bin mem hv
  exact ⟨mem1, by simpa [binLoop] using hrun, hbuf, hst⟩

theorem binLoop_exit (m : Histograms) (todo bin b0 : Nat) (mem : Mem) (e : Overflow)
    (h1 : bin ≤ b0) (h2 : b0 < bin + todo)
    (hv : ∀ b, bin ≤ b → b < b0 → ValidBin m b) (hbad : packBin m b0 = .error e) :
    ∃ mem1, binLoop m todo bin mem = .exited e.count e.bin e.cam mem1 ∧
      (∀ k, mem1.output_buffer k =
        if 21 * bin ≤ k ∧ k < 21 * b0 then recordByte m (k / 21) (k % 21)
        else mem.output_buffer k) ∧
      mem1.stores = mem.stores ++
        (List.range (21 * (b0 - bin))).map (fun j => ⟨(21 * bin + j) / 21, 21 * bin + j⟩) := by
  obtain ⟨mem1, hrun, hbuf, hst⟩ := binLoop_prefix m (todo - (b0 - bin)) (b0 - bin) bin mem
    (fun b h3 h4 => hv b h3 (by omega))
  have hb : bin + (b0 - bin) = b0 := by omega
  rw [hb] at hrun hbuf
  have ht : b0 - bin + (todo - (b0 - bin)) = todo := by omega
  rw [ht] at hrun
  obtain ⟨r, hr⟩ : ∃ r, todo - (b0 - bin) = r + 1 := ⟨todo - (b0 - bin) - 1, by omega⟩
  rw [hr] at hrun
  refine ⟨mem1, ?_, hbuf, hst⟩
  rw [hrun]
  simp only [binLoop, hbad]

/-! ## The whole call -/

theorem concat_lt (m : Histograms) (bin : Nat) (hv : ValidBin m bin) :
    concat m bin < 2 ^ 168 := by
  obtain ⟨q, -, -, hA, hlt⟩ := packBin_ok m bin hv
  rw [← hA]; exact hlt

/-- Byte `i` of the record of a valid bin is byte `i` of the concatenation. -/
theorem recordByte_eq (m : Histograms) (bin i : Nat) (hv : ValidBin m bin) (hi : i < 21) :
    recordByte m bin i = concat m bin / 2 ^ (8 * i) % 256 := by
  obtain ⟨q, hq, hw, hA, -⟩ := packBin_ok m bin hv
  simp only [recordByte, hq]
  rw [srcByte_eq q hw i (by omega), hA]

theorem valid_bin (m : Histograms) (hv : Valid m) (bin : Nat) (hb : bin < NUM_BINS) :
    ValidBin m bin := fun cam hc => hv cam hc bin hb

/-- A valid matrix is packed to the end: the call returns, record `b` holds the
bytes of the concatenation of bin `b`, nothing past the buffer is touched and
the stores are those of indices `0 .. 21503` in order. -/
theorem pack_returns (m : Histograms) (buf : Nat → Nat) (hv : Valid m) :
    ∃ mem, pack_histograms m buf = .returned mem ∧
      (∀ b i, b < 1024 → i < 21 →
        mem.output_buffer (21 * b + i) = concat m b / 2 ^ (8 * i) % 256) ∧
      (∀ k, 21504 ≤ k → mem.output_buffer k = buf k) ∧
      mem.stores = (List.range 21504).map (fun k => ⟨k / 21, k⟩) := by
  obtain ⟨mem, hrun, hbuf, hst⟩ := binLoop_ok m NUM_BINS 0 ⟨buf, []⟩
    (fun b _ h => valid_bin m hv b (by simpa using h))
  refine ⟨mem, hrun, ?_, ?_, ?_⟩
  · intro b i hb hi
    have h1 : 21 * 0 ≤ 21 * b + i ∧ 21 * b + i < 21 * (0 + NUM_BINS) := by
      simp only [NUM_BINS]; omega
    have h2 : (21 * b + i) / 21 = b := by omega
    have h3 : (21 * b + i) % 21 = i := by omega
    rw [hbuf, if_pos h1, h2, h3]
    exact recordByte_eq m b i (valid_bin m hv b hb) hi
  · intro k hk
    have h1 : ¬ (21 * 0 ≤ k ∧ k < 21 * (0 + NUM_BINS)) := by
      simp only [NUM_BINS]; omega
    rw [hbuf, if_neg h1]
  · rw [hst, show 21 * NUM_BINS = 21504 by norm_num]
    simp

/-- The 21 bytes of a record, read little-endian, give back the concatenation. -/
theorem leValue_record (out : Nat → Nat) (off A : Nat) (hA : A < 2 ^ 168)
    (h : ∀ i, i < 21 → out (off + i) = A / 2 ^ (8 * i) % 256) :
    leValue out off 21 = A := by
  unfold leValue
  rw [Finset.sum_congr rfl (fun i hi => by rw [h i (Finset.mem_range.mp hi)]),
    sum_bytes_eq_mod A 21]
  exact Nat.mod_eq_of_lt (by simpa using hA)

/-- Bit `r` of byte `q` of a number is its bit `8 * q + r`. -/
theorem testBit_byte (A q r : Nat) (hr : r < 8) :
    (A / 2 ^ (8 * q) % 256).testBit r = A.testBit (8 * q + r) := by
  rw [show (256 : Nat) = 2 ^ 8 by norm_num, Nat.testBit_mod_two_pow, ← Nat.shiftRight_eq_div_pow,
    Nat.testBit_shiftRight]
  simp [hr]

/-- Field `c` of the concatenation is the count of camera `c`. -/
theorem concat_field (m : Histograms) (bin c : Nat) (hv : ValidBin m bin) (hc : c < 8) :
    concat m bin / 2 ^ (21 * c) % 2 ^ 21 = m c bin := by
  have h0 := hv 0 (by norm_num)
  have h1 := hv 1 (by norm_num)
  have h2 := hv 2 (by norm_num)
  have h3 := hv 3 (by norm_num)
  have h4 := hv 4 (by norm_num)
  have h5 := hv 5 (by norm_num)
  have h6 := hv 6 (by norm_num)
  have h7 := hv 7 (by norm_num)
  simp only [concat, NUM_CAMERAS, Finset.sum_range_succ, Finset.sum_range_zero]
  interval_cases c <;> norm_num <;> omega

/-- A matrix that is not valid has a first overflow in bin-major order. -/
theorem exists_first_overflow (m : Histograms) (h : ¬ Valid m) :
    ∃ b0 c0, b0 < NUM_BINS ∧ c0 < NUM_CAMERAS ∧ 2 ^ 21 ≤ m c0 b0 ∧
      (∀ b, b < b0 → ValidBin m b) ∧ (∀ c, c < c0 → m c b0 < 2 ^ 21) := by
  classical
  have hb : ∃ b, b < NUM_BINS ∧ ¬ ValidBin m b := by
    by_contra hcon
    apply h
    intro cam hc bin hbin
    by_contra hlt
    exact hcon ⟨bin, hbin, fun hvb => hlt (hvb cam hc)⟩
  have hb1 := Nat.find_spec hb
  have hc : ∃ c, c < NUM_CAMERAS ∧ 2 ^ 21 ≤ m c (Nat.find hb) := by
    by_contra hcon
    apply hb1.2
    intro cam hcam
    by_contra hlt
    exact hcon ⟨cam, hcam, by omega⟩
  have hc1 := Nat.find_spec hc
  refine ⟨Nat.find hb, Nat.find hc, hb1.1, hc1.1, hc1.2, ?_, ?_⟩
  · intro b hlt
    by_contra hnv
    exact Nat.find_min hb hlt ⟨by omega, hnv⟩
  · intro c hlt
    by_contra hge
    exact Nat.find_min hc hlt ⟨by omega, by omega⟩

/-- The run on a matrix whose first overflow is at bin `b0`, camera `c0`. -/
theorem pack_exits (m : Histograms) (buf : Nat → Nat) (b0 c0 : Nat) (hb0 : b0 < NUM_BINS)
    (hc0 : c0 < NUM_CAMERAS) (hbad : 2 ^ 21 ≤ m c0 b0) (hbins : ∀ b, b < b0 → ValidBin m b)
    (hcams : ∀ c, c < c0 → m c b0 < 2 ^ 21) :
    ∃ mem, pack_histograms m buf = .exited (m c0 b0) b0 c0 mem ∧
      (∀ k, k < 21 * b0 → mem.output_buffer k = recordByte m (k / 21) (k % 21)) ∧
      (∀ k, 21 * b0 ≤ k → mem.output_buffer k = buf k) ∧
      mem.stores = (List.range (21 * b0)).map (fun k => ⟨k / 21, k⟩) := by
  obtain ⟨mem, hrun, hbuf, hst⟩ := binLoop_exit m NUM_BINS 0 b0 ⟨buf, []⟩ _ (Nat.zero_le _)
    (by simpa using hb0) (fun b _ h => hbins b h) (packBin_overflow m b0 c0 hc0 hbad hcams)
  refine ⟨mem, hrun, ?_, ?_, ?_⟩
  · intro k hk
    rw [hbuf, if_pos ⟨by omega, hk⟩]
  · intro k hk
    have h1 : ¬ (21 * 0 ≤ k ∧ k < 21 * b0) := by omega
    rw [hbuf, if_neg h1]
  · rw [hst]
    simp

theorem rampMatrix_valid : Valid rampMatrix := by
  intro cam hc bin hb
  simp only [NUM_CAMERAS, NUM_BINS] at hc hb
  simp only [rampMatrix]
  omega

/-! ## Layout of the output -/

/-- C1: for a matrix with all counts below `2 ^ 21` and a bin `b < 1024`, the call
returns, and the 21 bytes at offsets `21 * b .. 21 * b + 20` of the buffer, read
as a little-endian unsigned integer, are the sum over the cameras `c` of
`m[c][b] * 2 ^ (21 * c)`; bit `i` of that sum is bit `i % 8` of byte
`21 * b + i / 8`. -/
theorem pack_record_is_concat (m : Histograms) (buf : Nat → Nat) (hv : Valid m)
    (b : Nat) (hb : b < NUM_BINS) :
    ∃ mem, pack_histograms m buf = .returned mem ∧
      leValue mem.output_buffer (BYTES_PER_BIN * b) BYTES_PER_BIN
        = ∑ c ∈ Finset.range NUM_CAMERAS, m c b * 2 ^ (21 * c) ∧
      ∀ i, i < 168 →
        (∑ c ∈ Finset.range NUM_CAMERAS, m c b * 2 ^ (21 * c)).testBit i
          = (mem.output_buffer (BYTES_PER_BIN * b + i / 8)).testBit (i % 8) := by
  obtain ⟨mem, hrun, hbytes, -, -⟩ := pack_returns m buf hv
  have hvb := valid_bin m hv b hb
  refine ⟨mem, hrun, ?_, ?_⟩
  · exact leValue_record mem.output_buffer (21 * b) (concat m b) (concat_lt m b hvb)
      (fun i hi => hbytes b i hb hi)
  · intro i hi
    rw [hbytes b (i / 8) hb (by omega), testBit_byte _ _ _ (Nat.mod_lt _ (by norm_num)),
      Nat.div_add_mod]
    rfl

theorem pack_record_is_concat_witness :
    ∃ mem, pack_histograms rampMatrix zeroBuffer = .returned mem ∧
      leValue mem.output_buffer (BYTES_PER_BIN * 1023) BYTES_PER_BIN
        = ∑ c ∈ Finset.range NUM_CAMERAS, rampMatrix c 1023 * 2 ^ (21 * c) ∧
      ∀ i, i < 168 →
        (∑ c ∈ Finset.range NUM_CAMERAS, rampMatrix c 1023 * 2 ^ (21 * c)).testBit i
          = (mem.output_buffer (BYTES_PER_BIN * 1023 + i / 8)).testBit (i % 8) :=
  pack_record_is_concat rampMatrix zeroBuffer rampMatrix_valid 1023 (by decide)

/-- C2: for a matrix with all counts in `[0, 2 ^ 21)`, reading the 21-bit fields
back from the buffer that `pack_histograms` produced gives the matrix again. -/
theorem unpack_pack_roundtrip (m : Histograms) (buf : Nat → Nat) (hv : Valid m) :
    ∃ mem, pack_histograms m buf = .returned mem ∧
      ∀ cam bin, cam < NUM_CAMERAS → bin < NUM_BINS →
        unpack mem.output_buffer cam bin = m cam bin := by
  obtain ⟨mem, hrun, hbytes, -, -⟩ := pack_returns m buf hv
  refine ⟨mem, hrun, ?_⟩
  intro cam bin hc hb
  have hvb := valid_bin m hv bin hb
  unfold unpack
  rw [leValue_record mem.output_buffer (21 * bin) (concat m bin) (concat_lt m bin hvb)
    (fun i hi => hbytes bin i hb hi)]
  exact concat_field m bin cam hvb hc

theorem unpack_pack_roundtrip_witness :
    ∃ mem, pack_histograms rampMatrix zeroBuffer = .returned mem ∧
      ∀ cam bin, cam < NUM_CAMERAS → bin < NUM_BINS →
        unpack mem.output_buffer cam bin = rampMatrix cam bin :=
  unpack_pack_roundtrip rampMatrix zeroBuffer rampMatrix_valid

/-! ## Overflow -/

/-- C3: the call returns exactly when every count is below `2 ^ 21`, and it ends
in the overflow exit exactly when some count is `2 ^ 21` or more; the exit
reports a count of the matrix that is `2 ^ 21` or more, and no run on a matrix
with such a count returns a buffer. -/
theorem pack_fails_iff_overflow (m : Histograms) (buf : Nat → Nat) :
    ((∃ mem, pack_histograms m buf = .returned mem) ↔ Valid m) ∧
    ((∃ count bin cam mem, pack_histograms m buf = .exited count bin cam mem) ↔
      ∃ cam bin, cam < NUM_CAMERAS ∧ bin < NUM_BINS ∧ 2 ^ 21 ≤ m cam bin) ∧
    (∀ count bin cam mem, pack_histograms m buf = .exited count bin cam mem →
      cam < NUM_CAMERAS ∧ bin < NUM_BINS ∧ count = m cam bin ∧ 2 ^ 21 ≤ count) := by
  have hexit : ¬ Valid m → ∃ b0 c0 mem, b0 < NUM_BINS ∧ c0 < NUM_CAMERAS ∧ 2 ^ 21 ≤ m c0 b0 ∧
      pack_histograms m buf = .exited (m c0 b0) b0 c0 mem := by
    intro hnv
    obtain ⟨b0, c0, hb0, hc0, hbad, hbins, hcams⟩ := exists_first_overflow m hnv
    obtain ⟨mem, hrun, -⟩ := pack_exits m buf b0 c0 hb0 hc0 hbad hbins hcams
    exact ⟨b0, c0, mem, hb0, hc0, hbad, hrun⟩
  have hbadnv : (∃ cam bin, cam < NUM_CAMERAS ∧ bin < NUM_BINS ∧ 2 ^ 21 ≤ m cam bin) →
      ¬ Valid m := by
    rintro ⟨cam, bin, hc, hb, hge⟩ hv
    exact absurd (hv cam hc bin hb) (by omega)
  refine ⟨⟨?_, ?_⟩, ⟨?_, ?_⟩, ?_⟩
  · rintro ⟨mem, hrun⟩
    by_contra hnv
    obtain ⟨b0, c0, mem1, -, -, -, hrun1⟩ := hexit hnv
    rw [hrun] at hrun1
    exact Outcome.noConfusion hrun1
  · intro hv
    obtain ⟨mem, hrun, -⟩ := pack_returns m buf hv
    exact ⟨mem, hrun⟩
  · rintro ⟨count, bin, cam, mem, hrun⟩
    by_contra hnone
    have hv : Valid m := by
      intro c hc b hb
      by_contra hlt
      exact hnone ⟨c, b, hc, hb, by omega⟩
    obtain ⟨mem1, hrun1, -⟩ := pack_returns m buf hv
    rw [hrun] at hrun1
    exact Outcome.noConfusion hrun1
  · intro hbad
    obtain ⟨b0, c0, mem, -, -, -, hrun⟩ := hexit (hbadnv hbad)
    exact ⟨_, _, _, mem, hrun⟩
  · intro count bin cam mem hrun
    by_cases hv : Valid m
    · obtain ⟨mem1, hrun1, -⟩ := pack_returns m buf hv
      rw [hrun] at hrun1
      exact Outcome.noConfusion hrun1
    · obtain ⟨b0, c0, mem1, hb0, hc0, hge, hrun1⟩ := hexit hv
      rw [hrun] at hrun1
      injection hrun1 with h1 h2 h3 h4
      subst h1 h2 h3
      exact ⟨hc0, hb0, rfl, hge⟩

/-- C4: when the count of camera `c`, bin `b` is `2 ^ 21` or more and every other
count is below `2 ^ 21`, the call ends in the overflow exit whose message names
the value `m[c][b]`, bin `b` and camera `c`. -/
theorem single_overflow_reported (m : Histograms) (buf : Nat → Nat) (c b : Nat)
    (hc : c < NUM_CAMERAS) (hb : b < NUM_BINS) (hbad : 2 ^ 21 ≤ m c b)
    (hrest : ∀ cam bin, cam < NUM_CAMERAS → bin < NUM_BINS → (cam, bin) ≠ (c, b) →
      m cam bin < 2 ^ 21) :
    ∃ mem, pack_histograms m buf = .exited (m c b) b c mem := by
  obtain ⟨mem, hrun, -⟩ := pack_exits m buf b c hb hc hbad
    (fun bin hlt cam hcam => hrest cam bin hcam (by simp only [NUM_BINS] at hb ⊢; omega)
      (by intro h; injection h with h1 h2; omega))
    (fun cam hlt => hrest cam b (by simp only [NUM_CAMERAS] at hc ⊢; omega) hb
      (by intro h; injection h with h1 h2; omega))
  exact ⟨mem, hrun⟩

theorem single_overflow_reported_witness :
    ∃ mem, pack_histograms overflowAt35 zeroBuffer = .exited 2097152 5 3 mem :=
  single_overflow_reported overflowAt35 zeroBuffer 3 5 (by decide) (by decide) (by decide)
    (by
      intro cam bin _ _ hne
      have h : ¬ (cam = 3 ∧ bin = 5) := fun h => hne (by rw [h.1, h.2])
      simp [overflowAt35, h])

/-! ## Failure and the caller's buffer -/

/-- C5, as the claim states it, fails: on `overflowInBin1` and a zeroed buffer the
call ends in the overflow exit for bin 1, and by then byte 0 of the caller's
buffer has changed from 0 to 1 and 21 stores have been made. -/
theorem failed_call_has_written_bin0 :
    ∃ mem, pack_histograms overflowInBin1 zeroBuffer = .exited 2097152 1 0 mem ∧
      zeroBuffer 0 = 0 ∧ mem.output_buffer 0 = 1 ∧ mem.stores.length = 21 :=
  ⟨(pack_histograms overflowInBin1 zeroBuffer).mem, by rfl, by rfl, by decide, by decide⟩

/-- C5, amended: when the call ends in the overflow exit, the reported bin is the
first bin that holds a count of `2 ^ 21` or more and the reported camera the first
such camera of that bin.  By then the call has made exactly the stores of the
records of the bins before the reported one: each of those records, read as a
little-endian integer, is the concatenation of its bin, byte by byte, and every
byte from index `21 * bin` on is as it was before the call.  When the reported bin
is bin 0 nothing has been stored and the buffer is as before the call. -/
theorem failed_call_leaves_bin_and_later (m : Histograms) (buf : Nat → Nat)
    (count bin cam : Nat) (mem : Mem)
    (h : pack_histograms m buf = .exited count bin cam mem) :
    bin < NUM_BINS ∧ cam < NUM_CAMERAS ∧ count = m cam bin ∧ 2 ^ 21 ≤ m cam bin ∧
      (∀ b c, b < bin → c < NUM_CAMERAS → m c b < 2 ^ 21) ∧
      (∀ c, c < cam → m c bin < 2 ^ 21) ∧
      mem.stores = (List.range (BYTES_PER_BIN * bin)).map (fun k => ⟨k / BYTES_PER_BIN, k⟩) ∧
      (∀ k, BYTES_PER_BIN * bin ≤ k → mem.output_buffer k = buf k) ∧
      (∀ b, b < bin →
        leValue mem.output_buffer (BYTES_PER_BIN * b) BYTES_PER_BIN
          = ∑ c ∈ Finset.range NUM_CAMERAS, m c b * 2 ^ (21 * c)) ∧
      (∀ b i, b < bin → i < BYTES_PER_BIN →
        mem.output_buffer (BYTES_PER_BIN * b + i)
          = (∑ c ∈ Finset.range NUM_CAMERAS, m c b * 2 ^ (21 * c)) / 2 ^ (8 * i) % 256) ∧
      (bin = 0 → mem.stores = [] ∧ mem.output_buffer = buf) := by
  by_cases hv : Valid m
  · obtain ⟨mem1, hrun1, -⟩ := pack_returns m buf hv
    rw [h] at hrun1
    exact Outcome.noConfusion hrun1
  · obtain ⟨b0, c0, hb0, hc0, hbad, hbins, hcams⟩ := exists_first_overflow m hv
    obtain ⟨mem1, hrun1, hlow, hhigh, hst⟩ := pack_exits m buf b0 c0 hb0 hc0 hbad hbins hcams
    rw [h] at hrun1
    injection hrun1 with h1 h2 h3 h4
    subst h1 h2 h3 h4
    have hbyte : ∀ b i, b < bin → i < BYTES_PER_BIN →
        mem.output_buffer (BYTES_PER_BIN * b + i) = concat m b / 2 ^ (8 * i) % 256 := by
      intro b i hb hi
      have hi21 : i < 21 := hi
      have h5 : (21 * b + i) / 21 = b := by omega
      have h6 : (21 * b + i) % 21 = i := by omega
      rw [hlow (21 * b + i) (by omega), h5, h6]
      exact recordByte_eq m b i (hbins b hb) hi21
    refine ⟨hb0, hc0, rfl, hbad, fun b c hb hc => hbins b hb c hc, hcams, hst, hhigh, ?_,
      hbyte, ?_⟩
    · intro b hb
      exact leValue_record mem.output_buffer (21 * b) (concat m b) (concat_lt m b (hbins b hb))
        (fun i hi => hbyte b i hb hi)
    · intro hzero
      refine ⟨by rw [hst, hzero]; rfl, ?_⟩
      funext k
      exact hhigh k (by rw [hzero]; exact Nat.zero_le _)

theorem failed_call_leaves_bin_and_later_witness :
    1 < NUM_BINS ∧ 0 < NUM_CAMERAS ∧ 2097152 = overflowInBin1 0 1 ∧
      2 ^ 21 ≤ overflowInBin1 0 1 ∧
      (∀ b c, b < 1 → c < NUM_CAMERAS → overflowInBin1 c b < 2 ^ 21) ∧
      (∀ c, c < 0 → overflowInBin1 c 1 < 2 ^ 21) ∧
      (pack_histograms overflowInBin1 zeroBuffer).mem.stores
        = (List.range (BYTES_PER_BIN * 1)).map (fun k => ⟨k / BYTES_PER_BIN, k⟩) ∧
      (∀ k, BYTES_PER_BIN * 1 ≤ k →
        (pack_histograms overflowInBin1 zeroBuffer).mem.output_buffer k = zeroBuffer k) ∧
      (∀ b, b < 1 →
        leValue (pack_histograms overflowInBin1 zeroBuffer).mem.output_buffer
            (BYTES_PER_BIN * b) BYTES_PER_BIN
          = ∑ c ∈ Finset.range NUM_CAMERAS, overflowInBin1 c b * 2 ^ (21 * c)) ∧
      (∀ b i, b < 1 → i < BYTES_PER_BIN →
        (pack_histograms overflowInBin1 zeroBuffer).mem.output_buffer (BYTES_PER_BIN * b + i)
          = (∑ c ∈ Finset.range NUM_CAMERAS, overflowInBin1 c b * 2 ^ (21 * c))
              / 2 ^ (8 * i) % 256) ∧
      (1 = 0 → (pack_histograms overflowInBin1 zeroBuffer).mem.stores = [] ∧
        (pack_histograms overflowInBin1 zeroBuffer).mem.output_buffer = zeroBuffer) :=
  failed_call_leaves_bin_and_later overflowInBin1 zeroBuffer 2097152 1 0
    (pack_histograms overflowInBin1 zeroBuffer).mem (by rfl)

/-! ## Size and write-once -/

/-- C6: for a matrix that passes validation the call returns after exactly
`1024 * 21 = 21504` stores: the stores are those of the indices `0 .. 21503` in
ascending order, index `k` being stored in the iteration of bin `k / 21`, so every
index below 21504 is stored exactly once, no index from 21504 on is stored, and
the bytes from 21504 on are as before the call. -/
theorem pack_writes_each_index_once (m : Histograms) (buf : Nat → Nat) (hv : Valid m) :
    ∃ mem, pack_histograms m buf = .returned mem ∧
      mem.stores = (List.range TOTAL_BYTES).map (fun k => ⟨k / BYTES_PER_BIN, k⟩) ∧
      mem.stores.length = 21504 ∧
      (∀ k, k < TOTAL_BYTES → (mem.stores.map Store.index).count k = 1) ∧
      (∀ s, s ∈ mem.stores → s.index < TOTAL_BYTES ∧ s.bin = s.index / BYTES_PER_BIN) ∧
      (∀ k, TOTAL_BYTES ≤ k → mem.output_buffer k = buf k) := by
  obtain ⟨mem, hrun, -, hhigh, hst⟩ := pack_returns m buf hv
  have hidx : mem.stores.map Store.index = List.range 21504 := by
    rw [hst, List.map_map]
    exact List.map_id _
  refine ⟨mem, hrun, hst, ?_, ?_, ?_, hhigh⟩
  · rw [hst]; simp
  · intro k hk
    rw [hidx]
    exact List.count_eq_one_of_mem (List.nodup_range _) (List.mem_range.mpr hk)
  · intro s hs
    rw [hst, List.mem_map] at hs
    obtain ⟨k, hk, rfl⟩ := hs
    exact ⟨List.mem_range.mp hk, rfl⟩

theorem pack_writes_each_index_once_witness :
    ∃ mem, pack_histograms rampMatrix zeroBuffer = .returned mem ∧
      mem.stores = (List.range TOTAL_BYTES).map (fun k => ⟨k / BYTES_PER_BIN, k⟩) ∧
      mem.stores.length = 21504 ∧
      (∀ k, k < TOTAL_BYTES → (mem.stores.map Store.index).count k = 1) ∧
      (∀ s, s ∈ mem.stores → s.index < TOTAL_BYTES ∧ s.bin = s.index / BYTES_PER_BIN) ∧
      (∀ k, TOTAL_BYTES ≤ k → mem.output_buffer k = zeroBuffer k) :=
  pack_writes_each_index_once rampMatrix zeroBuffer rampMatrix_valid

/-! ## Independence of the bins -/

theorem concat_congr (m m1 : Histograms) (N : Nat)
    (hcol : ∀ cam, cam < NUM_CAMERAS → m cam N = m1 cam N) : concat m N = concat m1 N := by
  unfold concat
  exact Finset.sum_congr rfl (fun c hc => by rw [hcol c (Finset.mem_range.mp hc)])

theorem isolateBin_valid (m : Histograms) (N : Nat) (hv : Valid m) : Valid (isolateBin m N) := by
  intro cam hc bin hb
  unfold isolateBin
  split
  · exact hv cam hc bin hb
  · norm_num

/-- C7: for a bin `N` and two valid matrices that agree on column `N`, the 21-byte
record at offset `21 * N` is the same in both outputs; and the record of bin `N`
in the output of a valid matrix is the record of bin `N` in the output of the
matrix that keeps column `N` and has zero in every other bin. -/
theorem bin_record_independent (m m1 : Histograms) (buf buf1 : Nat → Nat)
    (hv : Valid m) (hv1 : Valid m1) (N : Nat) (hN : N < NUM_BINS)
    (hcol : ∀ cam, cam < NUM_CAMERAS → m cam N = m1 cam N) :
    ∃ mem mem1 memN, pack_histograms m buf = .returned mem ∧
      pack_histograms m1 buf1 = .returned mem1 ∧
      pack_histograms (isolateBin m N) buf = .returned memN ∧
      ∀ i, i < BYTES_PER_BIN →
        mem.output_buffer (BYTES_PER_BIN * N + i) = mem1.output_buffer (BYTES_PER_BIN * N + i) ∧
        mem.output_buffer (BYTES_PER_BIN * N + i) = memN.output_buffer (BYTES_PER_BIN * N + i) := by
  obtain ⟨mem, hrun, hbytes, -, -⟩ := pack_returns m buf hv
  obtain ⟨mem1, hrun1, hbytes1, -, -⟩ := pack_returns m1 buf1 hv1
  obtain ⟨memN, hrunN, hbytesN, -, -⟩ := pack_returns (isolateBin m N) buf
    (isolateBin_valid m N hv)
  refine ⟨mem, mem1, memN, hrun, hrun1, hrunN, ?_⟩
  intro i hi
  have hiso : concat m N = concat (isolateBin m N) N :=
    concat_congr m (isolateBin m N) N (fun cam _ => by simp [isolateBin])
  exact ⟨by rw [hbytes N i hN hi, hbytes1 N i hN hi, concat_congr m m1 N hcol],
    by rw [hbytes N i hN hi, hbytesN N i hN hi, hiso]⟩

theorem bin_record_independent_witness :
    ∃ mem mem1 memN, pack_histograms rampMatrix zeroBuffer = .returned mem ∧
      pack_histograms (isolateBin rampMatrix 7) (fun _ => 255) = .returned mem1 ∧
      pack_histograms (isolateBin rampMatrix 7) zeroBuffer = .returned memN ∧
      ∀ i, i < BYTES_PER_BIN →
        mem.output_buffer (BYTES_PER_BIN * 7 + i) = mem1.output_buffer (BYTES_PER_BIN * 7 + i) ∧
        mem.output_buffer (BYTES_PER_BIN * 7 + i) = memN.output_buffer (BYTES_PER_BIN * 7 + i) :=
  bin_record_independent rampMatrix (isolateBin rampMatrix 7) zeroBuffer (fun _ => 255)
    rampMatrix_valid (isolateBin_valid rampMatrix 7 rampMatrix_valid) 7 (by decide)
    (fun cam _ => by simp [isolateBin])

/-! ## Boundary values and bit placement -/

theorem byte_index_split (k : Nat) (hk : k < TOTAL_BYTES) :
    k = 21 * (k / 21) + k % 21 ∧ k / 21 < 1024 ∧ k % 21 < 21 := by
  simp only [TOTAL_BYTES, NUM_BINS, BYTES_PER_BIN] at hk
  omega

theorem concat_zero (bin : Nat) : concat (fun _ _ => 0) bin = 0 := by
  simp [concat]

theorem concat_max (bin : Nat) : concat (fun _ _ => 2 ^ 21 - 1) bin = 2 ^ 168 - 1 := by
  simp only [concat, NUM_CAMERAS, Finset.sum_range_succ, Finset.sum_range_zero]
  norm_num

theorem max_bytes : ∀ i, i < 21 → (2 ^ 168 - 1) / 2 ^ (8 * i) % 256 = 255 := by
  decide

/-- C8: the matrix of all zeros is packed without error into 21504 bytes `0x00`,
the matrix with every count `2 ^ 21 - 1` is packed without error into 21504
bytes `0xFF`, and in both outputs every 21-bit field reads back as the count. -/
theorem boundary_values_pack (buf : Nat → Nat) :
    (∃ mem, pack_histograms (fun _ _ => 0) buf = .returned mem ∧
      mem.stores.length = 21504 ∧
      (∀ k, k < TOTAL_BYTES → mem.output_buffer k = 0x00) ∧
      ∀ cam bin, cam < NUM_CAMERAS → bin < NUM_BINS → unpack mem.output_buffer cam bin = 0) ∧
    (∃ mem, pack_histograms (fun _ _ => 2 ^ 21 - 1) buf = .returned mem ∧
      mem.stores.length = 21504 ∧
      (∀ k, k < TOTAL_BYTES → mem.output_buffer k = 0xFF) ∧
      ∀ cam bin, cam < NUM_CAMERAS → bin < NUM_BINS →
        unpack mem.output_buffer cam bin = 2 ^ 21 - 1) := by
  have hv0 : Valid (fun _ _ => 0) := fun _ _ _ _ => by norm_num
  have hv1 : Valid (fun _ _ => 2 ^ 21 - 1) := fun _ _ _ _ => by norm_num
  constructor
  · obtain ⟨mem, hrun, hbytes, -, hst⟩ := pack_returns _ buf hv0
    refine ⟨mem, hrun, by rw [hst]; simp, ?_, ?_⟩
    · intro k hk
      obtain ⟨h1, h2, h3⟩ := byte_index_split k hk
      rw [h1, hbytes _ _ h2 h3, concat_zero]
      simp
    · intro cam bin hc hb
      unfold unpack
      rw [leValue_record mem.output_buffer (21 * bin) _
        (concat_lt _ bin (valid_bin _ hv0 bin hb)) (fun i hi => hbytes bin i hb hi)]
      exact concat_field _ bin cam (valid_bin _ hv0 bin hb) hc
  · obtain ⟨mem, hrun, hbytes, -, hst⟩ := pack_returns _ buf hv1
    refine ⟨mem, hrun, by rw [hst]; simp, ?_, ?_⟩
    · intro k hk
      obtain ⟨h1, h2, h3⟩ := byte_index_split k hk
      rw [h1, hbytes _ _ h2 h3, concat_max]
      exact max_bytes _ h3
    · intro cam bin hc hb
      unfold unpack
      rw [leValue_record mem.output_buffer (21 * bin) _
        (concat_lt _ bin (valid_bin _ hv1 bin hb)) (fun i hi => hbytes bin i hb hi)]
      exact concat_field _ bin cam (valid_bin _ hv1 bin hb) hc

/-- The concatenation of a bin in which only camera `c` is not zero. -/
theorem concat_single (m : Histograms) (bin c : Nat) (hc : c < NUM_CAMERAS)
    (hz : ∀ cam, cam < NUM_CAMERAS → cam ≠ c → m cam bin = 0) :
    concat m bin = m c bin * 2 ^ (21 * c) := by
  unfold concat
  rw [Finset.sum_eq_single c]
  · intro cam hcam hne
    rw [hz cam (Finset.mem_range.mp hcam) hne, Nat.zero_mul]
  · intro hnot
    exact absurd (Finset.mem_range.mpr hc) hnot

set_option maxRecDepth 100000 in
/-- The bits of the bytes of a field of 21 ones placed at `21 * c`. -/
theorem ones_field_bits : ∀ c, c < 8 → ∀ i, i < 21 → ∀ j, j < 8 →
    ((2097151 * 2 ^ (21 * c)) / 2 ^ (8 * i) % 256).testBit j
      = decide (21 * c ≤ 8 * i + j ∧ 8 * i + j < 21 * c + 21) := by
  decide

theorem straddleMatrix_valid : Valid straddleMatrix := by
  intro cam hc bin hb
  simp only [NUM_CAMERAS, NUM_BINS] at hc hb
  simp only [straddleMatrix]
  split
  · split <;> norm_num
  · omega

theorem unitMatrix_valid : Valid unitMatrix := by
  intro cam hc bin hb
  simp only [NUM_CAMERAS, NUM_BINS] at hc hb
  simp only [unitMatrix]
  split
  · split <;> norm_num
  · omega

/-- C9: for a valid matrix, a camera `c` whose bit position `21 * c` has
`21 * c % 32 > 11` and a bin `b` in which camera `c` holds `0x1FFFFF` and the other
cameras hold 0, bit `j` of byte `i` of record `b` is set exactly when
`21 * c ≤ 8 * i + j < 21 * c + 21`; for camera 1 the record is
`00 00 E0 FF FF 03` followed by fifteen `00` bytes. -/
theorem straddling_field_bytes (m : Histograms) (buf : Nat → Nat) (hv : Valid m)
    (c b : Nat) (hc : c < NUM_CAMERAS) (hoff : 21 * c % 32 > 11) (hb : b < NUM_BINS)
    (hfull : m c b = 0x1FFFFF)
    (hzero : ∀ cam, cam < NUM_CAMERAS → cam ≠ c → m cam b = 0) :
    ∃ mem, pack_histograms m buf = .returned mem ∧
      (∀ i, i < BYTES_PER_BIN → ∀ j, j < 8 →
        (mem.output_buffer (BYTES_PER_BIN * b + i)).testBit j
          = decide (21 * c ≤ 8 * i + j ∧ 8 * i + j < 21 * c + 21)) ∧
      (c = 1 → (List.range BYTES_PER_BIN).map (fun i => mem.output_buffer (BYTES_PER_BIN * b + i))
        = [0x00, 0x00, 0xE0, 0xFF, 0xFF, 0x03, 0, 0, 0, 0, 0, 0, 0, 0, 0, 0, 0, 0, 0, 0, 0]) := by
  obtain ⟨mem, hrun, hbytes, -, -⟩ := pack_returns m buf hv
  have hcat : concat m b = 2097151 * 2 ^ (21 * c) := by
    rw [concat_single m b c hc hzero, hfull]
  refine ⟨mem, hrun, ?_, ?_⟩
  · intro i hi j hj
    rw [hbytes b i hb hi, hcat]
    exact ones_field_bits c hc i hi j hj
  · intro h1
    subst h1
    apply List.ext_getElem
    · simp
    · intro i h1 h2
      simp only [List.length_map, List.length_range] at h1
      simp only [List.getElem_map, List.getElem_range]
      rw [hbytes b i hb h1, hcat]
      interval_cases i <;> norm_num

theorem straddling_field_bytes_witness :
    ∃ mem, pack_histograms straddleMatrix zeroBuffer = .returned mem ∧
      (∀ i, i < BYTES_PER_BIN → ∀ j, j < 8 →
        (mem.output_buffer (BYTES_PER_BIN * 9 + i)).testBit j
          = decide (21 * 1 ≤ 8 * i + j ∧ 8 * i + j < 21 * 1 + 21)) ∧
      (1 = 1 → (List.range BYTES_PER_BIN).map (fun i => mem.output_buffer (BYTES_PER_BIN * 9 + i))
        = [0x00, 0x00, 0xE0, 0xFF, 0xFF, 0x03, 0, 0, 0, 0, 0, 0, 0, 0, 0, 0, 0, 0, 0, 0, 0]) :=
  straddling_field_bytes straddleMatrix zeroBuffer straddleMatrix_valid 1 9 (by decide)
    (by decide) (by decide) (by rfl)
    (fun cam _ hne => by simp [straddleMatrix, hne])

/-- C10: for a valid matrix whose bin 0 holds 1 for camera 0 and 0 for the cameras
1 to 7, byte 0 of the output is `0x01` and the bytes 1 to 20 are `0x00`. -/
theorem unit_count_bytes (m : Histograms) (buf : Nat → Nat) (hv : Valid m)
    (hone : m 0 0 = 1) (hzero : ∀ cam, 1 ≤ cam → cam < NUM_CAMERAS → m cam 0 = 0) :
    ∃ mem, pack_histograms m buf = .returned mem ∧
      mem.output_buffer 0 = 0x01 ∧
      ∀ i, 1 ≤ i → i < BYTES_PER_BIN → mem.output_buffer i = 0x00 := by
  obtain ⟨mem, hrun, hbytes, -, -⟩ := pack_returns m buf hv
  have hcat : concat m 0 = 1 := by
    rw [concat_single m 0 0 (by norm_num) (fun cam h1 h2 => hzero cam (by omega) h1), hone]
    norm_num
  have hrec : ∀ i, i < 21 → mem.output_buffer i = 1 / 2 ^ (8 * i) % 256 := by
    intro i hi
    have h := hbytes 0 i (by norm_num) hi
    rw [hcat] at h
    simpa using h
  refine ⟨mem, hrun, by rw [hrec 0 (by norm_num)]; rfl, ?_⟩
  intro i h1 h2
  rw [hrec i h2]
  interval_cases i <;> norm_num

theorem unit_count_bytes_witness :
    ∃ mem, pack_histograms unitMatrix zeroBuffer = .returned mem ∧
      mem.output_buffer 0 = 0x01 ∧
      ∀ i, 1 ≤ i → i < BYTES_PER_BIN → mem.output_buffer i = 0x00 :=
  unit_count_bytes unitMatrix zeroBuffer unitMatrix_valid (by rfl)
    (fun cam h1 _ => by
      have hne : cam ≠ 0 := by omega
      simp [unitMatrix, hne])

/-! ## The placement as an OR on the wide integer -/

/-- Bitwise OR acts on the low `n` bits and on the rest separately. -/
theorem or_concat (a b c d n : Nat) (ha : a < 2 ^ n) (hc : c < 2 ^ n) :
    (a + 2 ^ n * b) ||| (c + 2 ^ n * d) = (a ||| c) + 2 ^ n * (b ||| d) := by
  apply Nat.eq_of_testBit_eq
  intro i
  rw [Nat.testBit_or, Nat.add_comm a, Nat.add_comm c, Nat.add_comm (a ||| c),
    Nat.testBit_mul_pow_two_add _ ha, Nat.testBit_mul_pow_two_add _ hc,
    Nat.testBit_mul_pow_two_add _ (Nat.or_lt_two_pow ha hc)]
  split <;> simp

theorem accValue_nest (p : Packed) :
    accValue p = p 0 + 2 ^ 32 * (p 1 + 2 ^ 32 * (p 2 + 2 ^ 32 * (p 3 + 2 ^ 32 *
      (p 4 + 2 ^ 32 * p 5)))) := by
  rw [accValue_eq]; ring

/-- The value of the word-wise OR of two word arrays is the OR of their values. -/
theorem accValue_or (p q : Packed) (hp : WordsOk p) (hq : WordsOk q) :
    accValue (fun k => p k ||| q k) = accValue p ||| accValue q := by
  rw [accValue_nest p, accValue_nest q, accValue_nest]
  rw [or_concat _ _ _ _ 32 (hp 0 (by omega)) (hq 0 (by omega)),
    or_concat _ _ _ _ 32 (hp 1 (by omega)) (hq 1 (by omega)),
    or_concat _ _ _ _ 32 (hp 2 (by omega)) (hq 2 (by omega)),
    or_concat _ _ _ _ 32 (hp 3 (by omega)) (hq 3 (by omega)),
    or_concat _ _ _ _ 32 (hp 4 (by omega)) (hq 4 (by omega))]

/-- A placement ORs into each word what it would write into a zeroed array. -/
theorem place_or_zero (p : Packed) (bit_pos v : Nat) :
    place p bit_pos v = fun k => p k ||| place (fun _ => 0) bit_pos v k := by
  funext k
  unfold place
  simp only
  split
  · by_cases hk : k = bit_pos / 32
    · subst hk; simp
    · simp [Function.update, hk]
  · by_cases hk : k = bit_pos / 32
    · subst hk; simp [Function.update]
    · by_cases hk1 : k = bit_pos / 32 + 1
      · subst hk1; simp [Function.update]
      · simp [Function.update, hk, hk1]

theorem accValue_place_or (c : Nat) (hc : c < 8) (p : Packed) (v : Nat) (hv : v < 2 ^ 21)
    (hw : WordsOk p) :
    WordsOk (place p (21 * c) v) ∧
      accValue (place p (21 * c) v) = accValue p ||| (v * 2 ^ (21 * c)) := by
  have hz : accValue (fun _ => 0) = 0 := by simp [accValue]
  obtain ⟨hw0, hA0, -⟩ := place_spec c hc (fun _ => 0) v hv (fun k _ => by norm_num)
    (by rw [hz]; exact Nat.two_pow_pos _)
  rw [hz, Nat.zero_add] at hA0
  rw [place_or_zero p (21 * c) v]
  refine ⟨fun k hk => Nat.or_lt_two_pow (hw k hk) (hw0 k hk), ?_⟩
  rw [accValue_or p _ hw hw0, hA0]

theorem camLoop_succ (m : Histograms) (bin : Nat) :
    ∀ n cam bit_pos (p q : Packed), camLoop m bin n cam bit_pos p = .ok q →
      camLoop m bin (n + 1) cam bit_pos p =
        if m (cam + n) bin ≥ FIELD_LIMIT then .error ⟨m (cam + n) bin, bin, cam + n⟩
        else .ok (place q (bit_pos + 21 * n) (m (cam + n) bin)) := by
  intro n
  induction n with
  | zero =>
    intro cam bit_pos p q h
    simp only [camLoop] at h
    injection h with h
    subst h
    simp [camLoop]
  | succ n ih =>
    intro cam bit_pos p q h
    rw [camLoop] at h
    split at h
    · exact Except.noConfusion h
    · rename_i hlt
      have := ih (cam + 1) (bit_pos + 21) _ q h
      rw [camLoop]
      simp only [hlt, if_false]
      rw [this, show cam + 1 + n = cam + (n + 1) by ring,
        show bit_pos + 21 + 21 * n = bit_pos + 21 * (n + 1) by ring]

/-! ## How the call ends -/

/-- C11, as the claim states it, fails: on `overflowAt00` control does not come
back to the caller; the run is ended by `exit` with the message for count
`2 ^ 21`, bin 0, camera 0. -/
theorem overflow_ends_the_process :
    (pack_histograms overflowAt00 zeroBuffer).isReturned = false ∧
      ∃ mem, pack_histograms overflowAt00 zeroBuffer = .exited 2097152 0 0 mem :=
  ⟨by decide, (pack_histograms overflowAt00 zeroBuffer).mem, by rfl⟩

/-- C11, amended: control returns from `pack_histograms` to its caller exactly when
every count is below `2 ^ 21`, and then the buffer is packed; when some count is
`2 ^ 21` or more the call does not return: the process is ended by
`exit(EXIT_FAILURE)` after the message with the count, the bin and the camera.
Every call ends in one of these two ways. -/
theorem pack_returns_iff_valid (m : Histograms) (buf : Nat → Nat) :
    ((pack_histograms m buf).isReturned = true ↔ Valid m) ∧
    ((pack_histograms m buf).isReturned = false ↔
      ∃ cam bin, cam < NUM_CAMERAS ∧ bin < NUM_BINS ∧ 2 ^ 21 ≤ m cam bin) ∧
    ((∃ mem, pack_histograms m buf = .returned mem ∧
        ∀ cam bin, cam < NUM_CAMERAS → bin < NUM_BINS →
          unpack mem.output_buffer cam bin = m cam bin) ∨
      ∃ cam bin mem, 2 ^ 21 ≤ m cam bin ∧
        pack_histograms m buf = .exited (m cam bin) bin cam mem) := by
  have hbad_iff : ¬ Valid m ↔
      ∃ cam bin, cam < NUM_CAMERAS ∧ bin < NUM_BINS ∧ 2 ^ 21 ≤ m cam bin := by
    constructor
    · intro hnv
      obtain ⟨b0, c0, hb0, hc0, hbad, -, -⟩ := exists_first_overflow m hnv
      exact ⟨c0, b0, hc0, hb0, hbad⟩
    · rintro ⟨cam, bin, hc, hb, hge⟩ hv
      exact absurd (hv cam hc bin hb) (by omega)
  by_cases hv : Valid m
  · obtain ⟨mem, hrun, hbytes, -, -⟩ := pack_returns m buf hv
    have hret : (pack_histograms m buf).isReturned = true := by rw [hrun]; rfl
    refine ⟨⟨fun _ => hv, fun _ => hret⟩, ⟨?_, ?_⟩, Or.inl ⟨mem, hrun, ?_⟩⟩
    · intro hfalse
      rw [hret] at hfalse
      exact Bool.noConfusion hfalse
    · intro hbad
      exact absurd hv (hbad_iff.mpr hbad)
    · intro cam bin hc hb
      have hvb := valid_bin m hv bin hb
      unfold unpack
      rw [leValue_record mem.output_buffer (21 * bin) (concat m bin) (concat_lt m bin hvb)
        (fun i hi => hbytes bin i hb hi)]
      exact concat_field m bin cam hvb hc
  · obtain ⟨b0, c0, hb0, hc0, hbad, hbins, hcams⟩ := exists_first_overflow m hv
    obtain ⟨mem, hrun, -⟩ := pack_exits m buf b0 c0 hb0 hc0 hbad hbins hcams
    have hret : (pack_histograms m buf).isReturned = false := by rw [hrun]; rfl
    refine ⟨⟨?_, fun h => absurd h hv⟩, ⟨fun _ => hbad_iff.mp hv, fun _ => hret⟩,
      Or.inr ⟨c0, b0, mem, hbad, hrun⟩⟩
    intro htrue
    rw [hret] at htrue
    exact Bool.noConfusion htrue

/-! ## Refinement of the wide-integer OR -/

/-- C12: for a camera `c < 8`, a count `v < 2 ^ 21` and any state of the six 32-bit
words, the word-level step of the source changes the 192-bit value of the words
from `A` to `A ||| v * 2 ^ (21 * c)`, the step of the specification, and leaves
every word a 32-bit value.  In the one-word branch `v << bit_offset` is below
`2 ^ 32`; in the straddling branch the truncated `v << bit_offset` plus
`v >> (32 - bit_offset)` times `2 ^ 32` is `v * 2 ^ bit_offset`. -/
theorem place_refines_wide_or (c : Nat) (hc : c < NUM_CAMERAS) (v : Nat) (hv : v < 2 ^ 21)
    (packed : Packed) (hw : WordsOk packed) :
    accValue (place packed (21 * c) v) = placeWide (accValue packed) c v ∧
      WordsOk (place packed (21 * c) v) ∧
      (bit_offset (21 * c) ≤ 11 → v <<< bit_offset (21 * c) < 2 ^ 32) ∧
      (11 < bit_offset (21 * c) →
        shl32 v (bit_offset (21 * c)) + (v >>> bits_in_first (21 * c)) * 2 ^ 32
          = v * 2 ^ bit_offset (21 * c)) := by
  obtain ⟨hw1, hA⟩ := accValue_place_or c hc packed v hv hw
  refine ⟨hA, hw1, ?_, ?_⟩
  · intro hoff
    rw [Nat.shiftLeft_eq]
    calc v * 2 ^ bit_offset (21 * c) < 2 ^ 21 * 2 ^ bit_offset (21 * c) :=
          Nat.mul_lt_mul_of_pos_right hv (Nat.two_pow_pos _)
      _ = 2 ^ (21 + bit_offset (21 * c)) := (pow_add 2 21 _).symm
      _ ≤ 2 ^ 32 := Nat.pow_le_pow_right (by norm_num) (by omega)
  · intro _
    have hoff : bit_offset (21 * c) ≤ 32 := by unfold bit_offset; omega
    rw [shl32_eq v _ hoff, Nat.shiftRight_eq_div_pow]
    unfold bits_in_first
    have h32 : (2 : Nat) ^ 32 = 2 ^ (32 - bit_offset (21 * c)) * 2 ^ bit_offset (21 * c) := by
      rw [← pow_add]; congr 1; omega
    rw [h32, ← Nat.mul_assoc, ← Nat.add_mul, Nat.mod_add_div']

theorem sampleWords_ok : WordsOk sampleWords := by
  intro k hk
  simp only [sampleWords, hk, if_true]
  norm_num

theorem place_refines_wide_or_witness :
    accValue (place sampleWords (21 * 4) 1234567) = placeWide (accValue sampleWords) 4 1234567 ∧
      WordsOk (place sampleWords (21 * 4) 1234567) ∧
      (bit_offset (21 * 4) ≤ 11 → 1234567 <<< bit_offset (21 * 4) < 2 ^ 32) ∧
      (11 < bit_offset (21 * 4) →
        shl32 1234567 (bit_offset (21 * 4)) + (1234567 >>> bits_in_first (21 * 4)) * 2 ^ 32
          = 1234567 * 2 ^ bit_offset (21 * 4)) :=
  place_refines_wide_or 4 (by decide) 1234567 (by norm_num) sampleWords sampleWords_ok

/-! ## The unused top of the accumulator -/

/-- C13: for a valid matrix and any bin, the camera loop started on the zeroed word
array ends with `packed[5] < 2 ^ 8`: the value of the six words is below `2 ^ 168`,
no bit from 168 on is set, and the field of camera 7 is the 21 bits that end at
bit 167. -/
theorem top_bits_stay_clear (m : Histograms) (hv : Valid m) (bin : Nat) (hb : bin < NUM_BINS) :
    ∃ packed, packBin m bin = .ok packed ∧ packed 5 < 2 ^ 8 ∧ accValue packed < 2 ^ 168 ∧
      (∀ i, 168 ≤ i → (accValue packed).testBit i = false) ∧
      accValue packed / 2 ^ 147 = m 7 bin := by
  have hvb := valid_bin m hv bin hb
  obtain ⟨q, hq, hw, hA, hlt⟩ := packBin_ok m bin hvb
  have h0 := hw 0 (by omega)
  have h1 := hw 1 (by omega)
  have h2 := hw 2 (by omega)
  have h3 := hw 3 (by omega)
  have h4 := hw 4 (by omega)
  refine ⟨q, hq, ?_, hlt, ?_, ?_⟩
  · rw [accValue_eq] at hlt
    norm_num at hlt h0 h1 h2 h3 h4 ⊢
    omega
  · intro i hi
    exact Nat.testBit_lt_two_pow
      (lt_of_lt_of_le hlt (Nat.pow_le_pow_right (by norm_num) hi))
  · have hf := concat_field m bin 7 hvb (by norm_num)
    rw [← hA] at hf
    have hsmall : accValue q / 2 ^ 147 < 2 ^ 21 := by
      rw [Nat.div_lt_iff_lt_mul (Nat.two_pow_pos _)]
      calc accValue q < 2 ^ 168 := hlt
        _ = 2 ^ 21 * 2 ^ 147 := by norm_num
    rw [← hf, show 21 * 7 = 147 by norm_num, Nat.mod_eq_of_lt hsmall]

theorem top_bits_stay_clear_witness :
    ∃ packed, packBin rampMatrix 1023 = .ok packed ∧ packed 5 < 2 ^ 8 ∧
      accValue packed < 2 ^ 168 ∧
      (∀ i, 168 ≤ i → (accValue packed).testBit i = false) ∧
      accValue packed / 2 ^ 147 = rampMatrix 7 1023 :=
  top_bits_stay_clear rampMatrix rampMatrix_valid 1023 (by decide)

/-! ## Which overflow is reported -/

/-- C14: when the pair `(b, c)` is the least one in bin-major order (lowest bin
first, then lowest camera in that bin) whose count is `2 ^ 21` or more, the call
ends in the overflow exit whose message names the count `m[c][b]`, bin `b` and
camera `c`, whatever other counts are oversized. -/
theorem first_overflow_reported (m : Histograms) (buf : Nat → Nat) (c b : Nat)
    (hc : c < NUM_CAMERAS) (hb : b < NUM_BINS) (hbad : 2 ^ 21 ≤ m c b)
    (hleast : ∀ cam bin, cam < NUM_CAMERAS → bin < NUM_BINS → 2 ^ 21 ≤ m cam bin →
      b < bin ∨ (b = bin ∧ c ≤ cam)) :
    ∃ mem, pack_histograms m buf = .exited (m c b) b c mem := by
  have hbins : ∀ bin, bin < b → ValidBin m bin := by
    intro bin hlt cam hcam
    by_contra hge
    have hbin : bin < NUM_BINS := by simp only [NUM_BINS] at hb ⊢; omega
    rcases hleast cam bin hcam hbin (by omega) with h | h <;> omega
  have hcams : ∀ cam, cam < c → m cam b < 2 ^ 21 := by
    intro cam hlt
    by_contra hge
    have hcam : cam < NUM_CAMERAS := by simp only [NUM_CAMERAS] at hc ⊢; omega
    rcases hleast cam b hcam hb (by omega) with h | h <;> omega
  obtain ⟨mem, hrun, -⟩ := pack_exits m buf b c hb hc hbad hbins hcams
  exact ⟨mem, hrun⟩

theorem first_overflow_reported_witness :
    ∃ mem, pack_histograms twoOverflows zeroBuffer = .exited 2097152 0 7 mem :=
  first_overflow_reported twoOverflows zeroBuffer 7 0 (by decide) (by decide) (by decide)
    (by
      intro cam bin _ _ hge
      by_cases h : (cam = 7 ∧ bin = 0) ∨ (cam = 0 ∧ bin = 1)
      · rcases h with h | h <;> omega
      · simp [twoOverflows, h] at hge)

/-! ## Range of the accesses -/

/-- C15: for a camera `c < 8` the word index `21 * c / 32` is at most 4 and the
left-shift amount `21 * c % 32` is below 32; in the straddling branch
(`bit_offset ≥ 12`) the index `word_index + 1` is at most 5 and the right-shift
amount `32 - bit_offset` lies in `1 .. 20`; the straddling branch is taken for
exactly the cameras 1, 3, 4, 6 and 7; so the checked step never fails and does
what the step of the source does. -/
theorem place_accesses_in_range (c : Nat) (hc : c < NUM_CAMERAS) :
    word_index (21 * c) ≤ 4 ∧ bit_offset (21 * c) < 32 ∧
      (12 ≤ bit_offset (21 * c) →
        word_index (21 * c) + 1 ≤ 5 ∧ 1 ≤ bits_in_first (21 * c) ∧
          bits_in_first (21 * c) ≤ 20) ∧
      (¬ bit_offset (21 * c) ≤ 11 ↔ c = 1 ∨ c = 3 ∨ c = 4 ∨ c = 6 ∨ c = 7) ∧
      ∀ (packed : Packed) (count : Nat),
        placeChecked packed (21 * c) count = some (place packed (21 * c) count) := by
  simp only [NUM_CAMERAS] at hc
  interval_cases c <;>
    simp [word_index, bit_offset, bits_in_first, placeChecked, place]

theorem place_accesses_in_range_witness :
    word_index (21 * 7) ≤ 4 ∧ bit_offset (21 * 7) < 32 ∧
      (12 ≤ bit_offset (21 * 7) →
        word_index (21 * 7) + 1 ≤ 5 ∧ 1 ≤ bits_in_first (21 * 7) ∧
          bits_in_first (21 * 7) ≤ 20) ∧
      (¬ bit_offset (21 * 7) ≤ 11 ↔ (7 : Nat) = 1 ∨ (7 : Nat) = 3 ∨ (7 : Nat) = 4 ∨
        (7 : Nat) = 6 ∨ (7 : Nat) = 7) ∧
      ∀ (packed : Packed) (count : Nat),
        placeChecked packed (21 * 7) count = some (place packed (21 * 7) count) :=
  place_accesses_in_range 7 (by decide)

/-! ## Frame of one placement -/

/-- The accumulator before camera `c` of a valid bin, and the step that follows. -/
theorem camLoop_before (m : Histograms) (bin c : Nat) (hv : ValidBin m bin)
    (hc : c < NUM_CAMERAS) :
    ∃ p, camLoop m bin c 0 0 (fun _ => 0) = .ok p ∧
      camLoop m bin (c + 1) 0 0 (fun _ => 0) = .ok (place p (21 * c) (m c bin)) ∧
      WordsOk p ∧ accValue p < 2 ^ (21 * c) := by
  simp only [NUM_CAMERAS] at hc
  have hz : accValue (fun _ => 0) = 0 := by simp [accValue]
  obtain ⟨p, hp, hw, -, hlt⟩ := camLoop_ok m bin c 0 (fun _ => 0) (by omega)
    (fun cam _ h => hv cam (by simp only [NUM_CAMERAS]; omega)) (fun k _ => by norm_num)
    (by rw [hz]; norm_num)
  simp only [Nat.mul_zero, Nat.zero_add] at hp hlt
  refine ⟨p, hp, ?_, hw, hlt⟩
  have hstep := camLoop_succ m bin c 0 0 (fun _ => 0) p hp
  have hnot : ¬ m c bin ≥ FIELD_LIMIT := by
    have := hv c (by simp only [NUM_CAMERAS]; omega)
    simp only [FIELD_LIMIT, Nat.shiftLeft_eq]; omega
  simpa [hnot] using hstep

/-- C16: in the run of a valid bin, the step for camera `c` takes the accumulator
left by the cameras below `c` and leaves every bit outside the positions
`21 * c .. 21 * c + 20` as it was; the bits from `21 * c` on were all zero before
the step, so the OR adds `m[c][bin] * 2 ^ (21 * c)`, bit `21 * c + j` becomes bit
`j` of the count, and the field of every camera below `c` reads as before. -/
theorem place_frame (m : Histograms) (bin c : Nat) (hv : ValidBin m bin)
    (hc : c < NUM_CAMERAS) :
    ∃ p, camLoop m bin c 0 0 (fun _ => 0) = .ok p ∧
      camLoop m bin (c + 1) 0 0 (fun _ => 0) = .ok (place p (21 * c) (m c bin)) ∧
      (∀ i, ¬ (21 * c ≤ i ∧ i < 21 * c + 21) →
        (accValue (place p (21 * c) (m c bin))).testBit i = (accValue p).testBit i) ∧
      (∀ i, 21 * c ≤ i → (accValue p).testBit i = false) ∧
      (∀ j, j < 21 →
        (accValue (place p (21 * c) (m c bin))).testBit (21 * c + j) = (m c bin).testBit j) ∧
      accValue (place p (21 * c) (m c bin)) = accValue p + m c bin * 2 ^ (21 * c) ∧
      (∀ k, k < c →
        accValue (place p (21 * c) (m c bin)) / 2 ^ (21 * k) % 2 ^ 21
          = accValue p / 2 ^ (21 * k) % 2 ^ 21) := by
  obtain ⟨p, hp, hstep, hw, hlt⟩ := camLoop_before m bin c hv hc
  have hvc : m c bin < 2 ^ 21 := hv c hc
  obtain ⟨-, hor⟩ := accValue_place_or c (by simpa using hc) p (m c bin) hvc hw
  obtain ⟨-, hadd, -⟩ := place_spec c (by simpa using hc) p (m c bin) hvc hw hlt
  have hclear : ∀ i, 21 * c ≤ i → (accValue p).testBit i = false := fun i hi =>
    Nat.testBit_lt_two_pow (lt_of_lt_of_le hlt (Nat.pow_le_pow_right (by norm_num) hi))
  have hfield : ∀ i, (m c bin * 2 ^ (21 * c)).testBit i
      = (decide (i ≥ 21 * c) && (m c bin).testBit (i - 21 * c)) := by
    intro i
    rw [Nat.mul_comm, Nat.testBit_mul_pow_two]
  refine ⟨p, hp, hstep, ?_, hclear, ?_, hadd, ?_⟩
  · intro i hi
    rw [hor, Nat.testBit_or, hfield]
    by_cases hlow : 21 * c ≤ i
    · have hhigh : (m c bin).testBit (i - 21 * c) = false :=
        Nat.testBit_lt_two_pow
          (lt_of_lt_of_le hvc (Nat.pow_le_pow_right (by norm_num) (by omega)))
      simp [hhigh]
    · simp [hlow]
  · intro j _
    rw [hor, Nat.testBit_or, hfield, hclear _ (by omega)]
    simp
  · intro k hk
    rw [hadd]
    obtain ⟨d, hd⟩ : ∃ d, c = k + 1 + d := ⟨c - (k + 1), by omega⟩
    have hsplit : m c bin * 2 ^ (21 * c) = (m c bin * 2 ^ (21 * d)) * 2 ^ 21 * 2 ^ (21 * k) := by
      rw [hd, show 21 * (k + 1 + d) = 21 * d + 21 + 21 * k by ring, pow_add, pow_add]
      ring
    rw [hsplit, Nat.add_mul_div_right _ _ (Nat.two_pow_pos _), Nat.add_mul_mod_self_right]

theorem place_frame_witness :
    ∃ p, camLoop rampMatrix 1023 6 0 0 (fun _ => 0) = .ok p ∧
      camLoop rampMatrix 1023 (6 + 1) 0 0 (fun _ => 0)
        = .ok (place p (21 * 6) (rampMatrix 6 1023)) ∧
      (∀ i, ¬ (21 * 6 ≤ i ∧ i < 21 * 6 + 21) →
        (accValue (place p (21 * 6) (rampMatrix 6 1023))).testBit i = (accValue p).testBit i) ∧
      (∀ i, 21 * 6 ≤ i → (accValue p).testBit i = false) ∧
      (∀ j, j < 21 →
        (accValue (place p (21 * 6) (rampMatrix 6 1023))).testBit (21 * 6 + j)
          = (rampMatrix 6 1023).testBit j) ∧
      accValue (place p (21 * 6) (rampMatrix 6 1023))
        = accValue p + rampMatrix 6 1023 * 2 ^ (21 * 6) ∧
      (∀ k, k < 6 →
        accValue (place p (21 * 6) (rampMatrix 6 1023)) / 2 ^ (21 * k) % 2 ^ 21
          = accValue p / 2 ^ (21 * k) % 2 ^ 21) :=
  place_frame rampMatrix 1023 6 (valid_bin rampMatrix rampMatrix_valid 1023 (by decide))
    (by decide)

end HistogramPacking
